import Mathlib

/-!
# tcp-copy-benchmark

A shallow embedding of the two programs of the repository:

* `analyse.go`: the analyzer, which loads the CPU profiles, totals their
  sampled values, sorts the totals and prints the ranking and the top three;
* `test/tcp_test.go`: the echo server loop `handleConnection` and the
  per-client loops of the benchmark strategies.

Files, profiles and connections are explicit values: a `World` answers
`os.Open` and `profile.Parse`, a `Conn` carries what the peer delivers next.
-/

namespace TcpCopyBenchmark

/-! ## Analyzer: data model -/

/-- One byte of a file or of a connection. -/
abbrev Byte := Nat

/-- The variable `profiles` of analyse.go, lines 10 to 21. -/
def profiles : List String :=
  [ "cpu_profile_Bufio.prof",
    "cpu_profile_IoCopy.prof",
    "cpu_profile_IoCopyBuffer.prof",
    "cpu_profile_IoPipe.prof",
    "cpu_profile_IoCopyDirect.prof",
    "cpu_profile_ReadvWritev.prof",
    "cpu_profile_Sendfile.prof",
    "cpu_profile_Splice.prof",
    "cpu_profile_Syscall.prof",
    "cpu_profile_UnixSyscall.prof" ]

/-- The part of a pprof sample the analyzer reads: `Value []int64`. -/
structure Sample where
  Value : List Int
deriving DecidableEq, Repr

/-- The part of a pprof profile the analyzer reads: `Sample []*Sample`. -/
structure Profile where
  Sample : List Sample
deriving DecidableEq, Repr

/-- The local type `ProfileInfo` of `main`. The field `CPUTimeMs` is
`float64(CPUTime) / 1e6`, a function of `CPUTime` alone that is only
printed; it is left out of the embedding. -/
structure ProfileInfo where
  Name : String
  CPUTime : Int
deriving DecidableEq, Repr

/-- An opened file: its contents. -/
structure File where
  contents : List Byte
deriving DecidableEq, Repr

/-- What the analyzer's environment answers: `os.Open` on a path and
`profile.Parse` on an opened file, each either a value or an error text. -/
structure World where
  osOpen : String → Except String File
  parse : File → Except String Profile

/-- One line of the analyzer's standard output, by the `Printf` that wrote it. -/
inductive Line where
  | errorOpening (profilePath err : String)
  | errorParsing (profilePath err : String)
  | cpuTimeHeader
  | profileLine (info : ProfileInfo)
  | top3Header
  | topLine (rank : Nat) (info : ProfileInfo)
deriving DecidableEq, Repr

/-! ## Analyzer: totals -/

/-- Two's complement wrap-around of a Go `int64` result. -/
def int64 (x : Int) : Int := (x + 2 ^ 63) % 2 ^ 64 - 2 ^ 63

/-- The inner loop `for _, value := range sample.Value { totalTime += value }`. -/
def addSample (totalTime : Int) (sample : Sample) : Int :=
  sample.Value.foldl (fun t value => int64 (t + value)) totalTime

/-- The loops of analyse.go, lines 46 to 51, starting from `var totalTime int64`. -/
def totalTime (prof : Profile) : Int :=
  prof.Sample.foldl addSample 0

/-- The sum the specification speaks of: every value of every sample, added up
as integers. -/
def sampledSum (prof : Profile) : Int :=
  (prof.Sample.map fun s => s.Value.sum).sum

/-! ## Analyzer: loading -/

/-- One pass of the loop body of analyse.go, lines 32 to 56: the state is the
output written so far and the slice `profileInfos`. The deferred `f.Close()`
runs when `main` returns and writes nothing. -/
def loadStep (w : World) (st : List Line × List ProfileInfo) (profilePath : String) :
    List Line × List ProfileInfo :=
  match w.osOpen ("results/" ++ profilePath) with
  | .error err => (st.1 ++ [Line.errorOpening profilePath err], st.2)
  | .ok f =>
    match w.parse f with
    | .error err => (st.1 ++ [Line.errorParsing profilePath err], st.2)
    | .ok prof => (st.1, st.2 ++ [⟨profilePath, totalTime prof⟩])

/-- The loop `for _, profilePath := range profiles`. -/
def loadLoop (w : World) (paths : List String) : List Line × List ProfileInfo :=
  paths.foldl (loadStep w) ([], [])

/-- Whether an artifact opens and parses. -/
def loads (w : World) (profilePath : String) : Bool :=
  match w.osOpen ("results/" ++ profilePath) with
  | .error _ => false
  | .ok f =>
    match w.parse f with
    | .error _ => false
    | .ok _ => true

/-! ## Analyzer: sorting

`sort.Slice(profileInfos, less)` runs `pdqsort_func(lessSwap{less, swap}, 0, n, limit)`
of the Go standard library, whose first statement is
`if length <= maxInsertion { insertionSort_func(data, a, b); return }` with
`maxInsertion = 12`. The slice sorted here has at most `len(profiles) = 10`
entries, so this is the branch the analyzer runs, and the one embedded. -/

/-- The cutoff `maxInsertion` of `pdqsort_func`. -/
def maxInsertion : Nat := 12

/-- The closure passed to `sort.Slice`:
`profileInfos[i].CPUTime < profileInfos[j].CPUTime`. -/
def less (data : List ProfileInfo) (i j : Nat) : Bool :=
  match data[i]?, data[j]? with
  | some x, some y => decide (x.CPUTime < y.CPUTime)
  | _, _ => false

/-- The swapper of the slice: exchanges the entries at `i` and `j`. -/
def swap (data : List ProfileInfo) (i j : Nat) : List ProfileInfo :=
  match data[i]?, data[j]? with
  | some x, some y => (data.set i y).set j x
  | _, _ => data

/-- The inner loop of `insertionSort_func`:
`for j := i; j > a && data.Less(j, j-1); j-- { data.Swap(j, j-1) }`. -/
def insertionInner (a : Nat) (data : List ProfileInfo) : Nat → List ProfileInfo
  | 0 => data
  | j + 1 =>
    if a < j + 1 ∧ less data (j + 1) j = true then
      insertionInner a (swap data (j + 1) j) j
    else data

/-- The function `insertionSort_func(data, a, b)`:
`for i := a + 1; i < b; i++ { inner loop }`. -/
def insertionSort_func (data : List ProfileInfo) (a b : Nat) : List ProfileInfo :=
  (List.range' (a + 1) (b - (a + 1))).foldl (fun d i => insertionInner a d i) data

/-- The call `sort.Slice(profileInfos, less)` on a slice of at most
`maxInsertion` entries. -/
def sortSlice (profileInfos : List ProfileInfo) : List ProfileInfo :=
  insertionSort_func profileInfos 0 profileInfos.length

/-! ## Analyzer: printing -/

/-- The loop `for i := 0; i < 3 && i < len(profileInfos); i++` of analyse.go,
lines 70 to 72, from index `i` with `remaining = 3 - i` passes still allowed.
An index outside the slice is a run-time panic, here `none`. -/
def top3From (profileInfos : List ProfileInfo) : Nat → Nat → Option (List Line)
  | 0, _ => some []
  | remaining + 1, i =>
    if i < profileInfos.length then
      match profileInfos[i]? with
      | none => none
      | some info =>
        (top3From profileInfos remaining (i + 1)).map fun rest =>
          Line.topLine (i + 1) info :: rest
    else some []

/-- The top-three lines printed for a sorted slice. -/
def top3Lines (profileInfos : List ProfileInfo) : Option (List Line) :=
  top3From profileInfos 3 0

/-- The entries a list of top-three lines names, in printing order. -/
def topEntries : List Line → List ProfileInfo
  | [] => []
  | Line.topLine _ info :: rest => info :: topEntries rest
  | _ :: rest => topEntries rest

/-- The ranking the analyzer prints: the loaded entries after `sort.Slice`. -/
def ranking (w : World) (paths : List String) : List ProfileInfo :=
  sortSlice (loadLoop w paths).2

/-- The top-three list the analyzer prints, `none` if printing it panics. -/
def top3 (w : World) (paths : List String) : Option (List ProfileInfo) :=
  (top3Lines (ranking w paths)).map topEntries

/-- The function `main` of analyse.go over an artifact list: its whole output,
`none` if it panics. -/
def main (w : World) (paths : List String) : Option (List Line) :=
  let loaded := loadLoop w paths
  let profileInfos := sortSlice loaded.2
  (top3Lines profileInfos).map fun tops =>
    loaded.1 ++ [Line.cpuTimeHeader] ++ profileInfos.map Line.profileLine
      ++ [Line.top3Header] ++ tops

/-! ## Analyzer: list forms used in the proofs -/

/-- The entry an artifact contributes: none if it fails to open or to parse. -/
def entryOf (w : World) (profilePath : String) : Option ProfileInfo :=
  match w.osOpen ("results/" ++ profilePath) with
  | .error _ => none
  | .ok f =>
    match w.parse f with
    | .error _ => none
    | .ok prof => some ⟨profilePath, totalTime prof⟩

/-- The inner loop on lists: `x` moves left over the reversed prefix `r` past
every entry whose total is strictly larger, the passed entries piling up in
`acc`. -/
def insertBack : List ProfileInfo → ProfileInfo → List ProfileInfo → List ProfileInfo
  | [], x, acc => x :: acc
  | y :: r, x, acc =>
    if x.CPUTime < y.CPUTime then insertBack r x (y :: acc)
    else (y :: r).reverse ++ x :: acc

/-- The outer loop on lists: `done` is the sorted prefix, the second list what
is still to be inserted. -/
def insertAll : List ProfileInfo → List ProfileInfo → List ProfileInfo
  | done, [] => done
  | done, x :: rest => insertAll (insertBack done.reverse x []) rest

/-- Ascending by total: every entry's total is at most that of every later entry. -/
def Ascending (l : List ProfileInfo) : Prop :=
  l.Pairwise fun a b => a.CPUTime ≤ b.CPUTime

/-- The entries of a list whose total is `t`, in their order in the list. -/
def withTotal (t : Int) (l : List ProfileInfo) : List ProfileInfo :=
  l.filter fun e => decide (e.CPUTime = t)

/-! ## Connections (tcp_test.go)

A connection is seen from the task that owns it: `incoming` lists what the
peer delivers, in order, and the `Writer` answers the task's own writes. -/

/-- What arrives next on a connection: bytes that arrive together, the peer's
close, or a transport error. -/
inductive Incoming where
  | data (chunk : List Byte)
  | eof
  | failure (err : String)
deriving DecidableEq, Repr

/-- The result `(n, err)` of one `Read` on a `net.Conn`: `n` bytes and no
error, `(0, io.EOF)`, or `(0, err)`. -/
inductive ReadResult where
  | got (bytes : List Byte)
  | eof
  | failed (err : String)
deriving DecidableEq, Repr

/-- The write side of a connection: `writeErr k` is the error of the `k`-th
`Write` call, if it fails; `written` holds the payload of every call that
succeeded, oldest first. -/
structure Writer where
  writeErr : Nat → Option String
  writes : Nat
  written : List (List Byte)

/-- A connection owned by one task. -/
structure Conn where
  incoming : List Incoming
  out : Writer

/-- The constant `bufferSize` of tcp_test.go. -/
def bufferSize : Nat := 1024 * 1024

/-- The bytes and events still to be read: the measure the read loops go down on. -/
def pendingSize : List Incoming → Nat
  | [] => 0
  | Incoming.data chunk :: rest => chunk.length + 1 + pendingSize rest
  | _ :: rest => 1 + pendingSize rest

/-- One `Read(p)` with `len(p) = cap` (`net.Conn.Read`): at most `cap` bytes of
the first chunk, the rest of the chunk staying for the next read. `none`: nothing
arrives any more and the peer has not closed, so the call never returns. -/
def readFrom (cap : Nat) : List Incoming → Option (ReadResult × List Incoming)
  | [] => none
  | Incoming.data chunk :: rest =>
    some (ReadResult.got (chunk.take cap),
      if chunk.drop cap = [] then rest else Incoming.data (chunk.drop cap) :: rest)
  | Incoming.eof :: rest => some (ReadResult.eof, Incoming.eof :: rest)
  | Incoming.failure err :: rest => some (ReadResult.failed err, Incoming.failure err :: rest)

/-- One `Write(p)`: the whole of `p` goes out, or the call fails. -/
def Writer.Write (w : Writer) (p : List Byte) : Option String × Writer :=
  match w.writeErr w.writes with
  | some err => (some err, { w with writes := w.writes + 1 })
  | none => (none, { w with writes := w.writes + 1, written := w.written ++ [p] })

/-- Everything written to the connection so far, as one byte sequence. -/
def Writer.bytes (w : Writer) : List Byte := w.written.flatten

/-! ## Echo server -/

/-- The loop of `handleConnection`, tcp_test.go lines 70 to 83, with `buf` the
buffer of `bufferSize` bytes: `Read` into `buf`, `Write(buf[:n])`, until a read
or a write fails. The result is what is left to read and the write side. -/
def handleLoop (incoming : List Incoming) (out : Writer) (buf : List Byte) :
    List Incoming × Writer :=
  match hr : readFrom bufferSize incoming with
  | none => (incoming, out)
  | some (ReadResult.eof, rest) => (rest, out)
  | some (ReadResult.failed _, rest) => (rest, out)
  | some (ReadResult.got bytes, rest) =>
    let buf₁ := bytes ++ buf.drop bytes.length
    match out.Write (buf₁.take bytes.length) with
    | (some _, out₁) => (rest, out₁)
    | (none, out₁) => handleLoop rest out₁ buf₁
termination_by pendingSize incoming
decreasing_by
  cases incoming with
  | nil => simp [readFrom] at hr
  | cons ev tail =>
    cases ev with
    | data chunk =>
      simp only [readFrom, Option.some.injEq, Prod.mk.injEq, ReadResult.got.injEq] at hr
      obtain ⟨_, hrest⟩ := hr
      subst hrest
      by_cases hd : chunk.drop bufferSize = []
      · simp [hd, pendingSize]
      · have hlen : bufferSize < chunk.length := by
          by_contra hc
          exact hd (List.drop_eq_nil_of_le (not_lt.mp hc))
        have hpos : 0 < bufferSize := by decide
        simp only [hd, if_false, pendingSize, List.length_drop]
        omega
    | eof => simp [readFrom] at hr
    | failure err => simp [readFrom] at hr

/-- The function `handleConnection`: `buf := make([]byte, bufferSize)`, then the
loop. The log lines and the deferred `conn.Close()` are left out: they write
nothing to the connection. -/
def handleConnection (conn : Conn) : Conn :=
  let r := handleLoop conn.incoming conn.out (List.replicate bufferSize 0)
  { incoming := r.1, out := r.2 }

/-- The bytes a connection delivers before its first close or error. -/
def readable : List Incoming → List Byte
  | Incoming.data chunk :: rest => chunk ++ readable rest
  | _ => []

/-! ## Client receive steps -/

/-- What a receive step leaves: the bytes it put into `resp`, or the error it
returned together with the bytes read before it. -/
inductive Received where
  | ok (bytes : List Byte)
  | err (msg : String) (bytes : List Byte)
deriving DecidableEq, Repr

/-- The loop of `io.ReadAtLeast(r, buf, min)` with `len(buf) = min`, which is
`io.ReadFull(r, buf)`: `for n < min && err == nil { nn, err = r.Read(buf[n:]); n += nn }`,
`got` being `buf[:n]`. At the end of the stream the error is `io.EOF` when
nothing was read and `io.ErrUnexpectedEOF` otherwise. `none`: a read never
returns. -/
def readAtLeast (min : Nat) (incoming : List Incoming) (got : List Byte) :
    Option (Received × List Incoming) :=
  if hlt : got.length < min then
    match hr : readFrom (min - got.length) incoming with
    | none => none
    | some (ReadResult.eof, rest) =>
      some (Received.err (if got.length = 0 then "EOF" else "unexpected EOF") got, rest)
    | some (ReadResult.failed err, rest) => some (Received.err err got, rest)
    | some (ReadResult.got bytes, rest) => readAtLeast min rest (got ++ bytes)
  else some (Received.ok got, incoming)
termination_by pendingSize incoming
decreasing_by
  cases incoming with
  | nil => simp [readFrom] at hr
  | cons ev tail =>
    cases ev with
    | data chunk =>
      simp only [readFrom, Option.some.injEq, Prod.mk.injEq, ReadResult.got.injEq] at hr
      obtain ⟨_, hrest⟩ := hr
      subst hrest
      by_cases hd : chunk.drop (min - got.length) = []
      · simp [hd, pendingSize]
      · have hlen : min - got.length < chunk.length := by
          by_contra hc
          exact hd (List.drop_eq_nil_of_le (not_lt.mp hc))
        simp only [hd, if_false, pendingSize, List.length_drop]
        omega
    | eof => simp [readFrom] at hr
    | failure err => simp [readFrom] at hr

/-- The call `io.ReadFull(conn, resp)` with `resp := make([]byte, messageLength)`. -/
def ioReadFull (messageLength : Nat) (incoming : List Incoming) :
    Option (Received × List Incoming) :=
  readAtLeast messageLength incoming []

/-- The call `syscall.Read(fd, resp)`, `unix.Read(fd, resp)` or
`unix.Readv(connFd, [][]byte{resp})` with `len(resp) = messageLength`: one
`read(2)` or `readv(2)`, which returns the bytes at hand, up to the length asked
for, and returns zero bytes and no error when the peer has closed. -/
def rawRead (messageLength : Nat) (incoming : List Incoming) :
    Option (Received × List Incoming) :=
  match readFrom messageLength incoming with
  | none => none
  | some (ReadResult.got bytes, rest) => some (Received.ok bytes, rest)
  | some (ReadResult.eof, rest) => some (Received.ok [], rest)
  | some (ReadResult.failed err, rest) => some (Received.err err [], rest)

/-! ## Client loops -/

/-- How a client loop ends: all iterations done, `b.Fatalf` in iteration `n`, or
a read of iteration `n` that never returns. -/
inductive Outcome where
  | finished
  | fatal (n : Nat) (msg : String)
  | blocked (n : Nat)
deriving DecidableEq, Repr

/-- What a client task does, in order. -/
inductive Event where
  | send (n : Nat)
  | received (n : Nat) (bytes : List Byte)
  | get (buf : List Byte)
  | put (buf : List Byte)
  | close
  | done
deriving DecidableEq, Repr

/-- A run of a client loop. -/
structure Run where
  events : List Event
  outcome : Outcome
  conn : Conn

/-- The loop `for n := 0; n < b.N; n++` shared by the strategies that write the
message and then call one receive step, from iteration `n` with `remaining`
iterations to go: `Write`, `b.Fatalf` on its error, `resp := make(...)`, the
receive step `recv`, `b.Fatalf` on its error. -/
def exchangeLoop (recv : Nat → List Incoming → Option (Received × List Incoming))
    (writeMsg readMsg : String) (message : List Byte) : Nat → Nat → Conn → Run
  | 0, _, conn => { events := [], outcome := Outcome.finished, conn := conn }
  | remaining + 1, n, conn =>
    match conn.out.Write message with
    | (some _, out₁) =>
      { events := [Event.send n], outcome := Outcome.fatal n writeMsg,
        conn := { conn with out := out₁ } }
    | (none, out₁) =>
      match recv message.length conn.incoming with
      | none =>
        { events := [Event.send n], outcome := Outcome.blocked n,
          conn := { conn with out := out₁ } }
      | some (Received.err _ _, rest) =>
        { events := [Event.send n], outcome := Outcome.fatal n readMsg,
          conn := { incoming := rest, out := out₁ } }
      | some (Received.ok bytes, rest) =>
        let r := exchangeLoop recv writeMsg readMsg message remaining (n + 1)
          { incoming := rest, out := out₁ }
        { r with events := Event.send n :: Event.received n bytes :: r.events }

/-- The loop of `BenchmarkIoCopy`, tcp_test.go lines 155 to 166. -/
def BenchmarkIoCopy (message : List Byte) (N : Nat) (conn : Conn) : Run :=
  exchangeLoop ioReadFull "Error writing to connection" "Error reading from connection"
    message N 0 conn

/-- The loop of `BenchmarkSyscall`, tcp_test.go lines 245 to 256. -/
def BenchmarkSyscall (message : List Byte) (N : Nat) (conn : Conn) : Run :=
  exchangeLoop rawRead "Error writing to socket" "Error reading from socket" message N 0 conn

/-- The loop of `BenchmarkUnixSyscall`, tcp_test.go lines 332 to 343. -/
def BenchmarkUnixSyscall (message : List Byte) (N : Nat) (conn : Conn) : Run :=
  exchangeLoop rawRead "Error writing to socket" "Error reading from socket" message N 0 conn

/-- The loop of `BenchmarkReadvWritev`, tcp_test.go lines 553 to 564. -/
def BenchmarkReadvWritev (message : List Byte) (N : Nat) (conn : Conn) : Run :=
  exchangeLoop rawRead "Error writing to connection" "Error reading from connection"
    message N 0 conn

/-- The replies a run observed: the bytes of each completed receive step, in order. -/
def replies : List Event → List (List Byte)
  | [] => []
  | Event.received _ bytes :: rest => bytes :: replies rest
  | _ :: rest => replies rest

/-! ## Buffer pool and the pooled-buffer strategy -/

/-- The contents of `bufferPool`: the buffers put back and not yet taken. -/
structure Pool where
  items : List (List Byte)

/-- The function `bufferPool.New`: `make([]byte, 32*1024)`. -/
def bufferPoolNew : List Byte := List.replicate (32 * 1024) 0

/-- The call `bufferPool.Get()`: a pooled buffer, or a new one when the pool is empty. -/
def Pool.Get (p : Pool) : List Byte × Pool :=
  match p.items with
  | [] => (bufferPoolNew, p)
  | buf :: rest => (buf, { items := rest })

/-- The call `bufferPool.Put(buf)`. -/
def Pool.Put (p : Pool) (buf : List Byte) : Pool :=
  { items := buf :: p.items }

/-- A deferred call of the client task's function. -/
inductive Deferred where
  | wgDone
  | connClose
  | poolPut (buf : List Byte)
deriving DecidableEq, Repr

/-- The state of a pooled-buffer client task: `deferred` is the stack of
deferred calls, the latest first; `poolOps` counts the task's own pool calls. -/
structure Task where
  conn : Conn
  pool : Pool
  poolOps : Nat
  deferred : List Deferred
  events : List Event
  outcome : Outcome

/-- The loop of `BenchmarkIoCopyBuffer`, tcp_test.go lines 195 to 208, from
iteration `n` with `remaining` iterations to go. `others k` is what the other
tasks do to the shared pool before this task's `k`-th pool call. -/
def ioCopyBufferLoop (others : Nat → Pool → Pool) (message : List Byte) :
    Nat → Nat → Task → Task
  | 0, _, t => t
  | remaining + 1, n, t =>
    match t.conn.out.Write message with
    | (some _, out₁) =>
      { t with conn := { t.conn with out := out₁ }, events := t.events ++ [Event.send n],
               outcome := Outcome.fatal n "Error writing to connection" }
    | (none, out₁) =>
      let g := (others t.poolOps t.pool).Get
      let t₁ : Task :=
        { t with conn := { t.conn with out := out₁ }, pool := g.2, poolOps := t.poolOps + 1,
                 deferred := Deferred.poolPut g.1 :: t.deferred,
                 events := t.events ++ [Event.send n, Event.get g.1] }
      match ioReadFull message.length t.conn.incoming with
      | none => { t₁ with outcome := Outcome.blocked n }
      | some (Received.err _ _, rest) =>
        { t₁ with conn := { t₁.conn with incoming := rest },
                  outcome := Outcome.fatal n "Error reading from connection" }
      | some (Received.ok bytes, rest) =>
        ioCopyBufferLoop others message remaining (n + 1)
          { t₁ with conn := { t₁.conn with incoming := rest },
                    events := t₁.events ++ [Event.received n bytes] }

/-- The deferred calls run at the end of the task's function, the latest first. -/
def runDeferred (others : Nat → Pool → Pool) : List Deferred → Task → Task
  | [], t => { t with deferred := [] }
  | Deferred.poolPut buf :: rest, t =>
    runDeferred others rest
      { t with pool := (others t.poolOps t.pool).Put buf, poolOps := t.poolOps + 1,
               deferred := rest, events := t.events ++ [Event.put buf] }
  | Deferred.connClose :: rest, t =>
    runDeferred others rest { t with deferred := rest, events := t.events ++ [Event.close] }
  | Deferred.wgDone :: rest, t =>
    runDeferred others rest { t with deferred := rest, events := t.events ++ [Event.done] }

/-- The state of the task's function of `BenchmarkIoCopyBuffer`, lines 187 to
209, when its loop starts: `defer wg.Done()`, a successful `net.Dial`,
`defer conn.Close()`. -/
def ioCopyBufferStart (conn : Conn) (pool : Pool) : Task :=
  { conn := conn, pool := pool, poolOps := 0,
    deferred := [Deferred.connClose, Deferred.wgDone], events := [],
    outcome := Outcome.finished }

/-- The task after `k` iterations of its loop, before any deferred call runs. -/
def ioCopyBufferAfter (others : Nat → Pool → Pool) (message : List Byte) (k : Nat)
    (conn : Conn) (pool : Pool) : Task :=
  ioCopyBufferLoop others message k 0 (ioCopyBufferStart conn pool)

/-- The task's function of `BenchmarkIoCopyBuffer` from its loop to its exit:
`N` iterations, or fewer when one fails, then the deferred calls. -/
def BenchmarkIoCopyBuffer (others : Nat → Pool → Pool) (message : List Byte) (N : Nat)
    (conn : Conn) (pool : Pool) : Task :=
  let t := ioCopyBufferAfter others message N conn pool
  runDeferred others t.deferred t

/-- The buffers a list of deferred calls will put back, in stack order. -/
def deferredPuts : List Deferred → List (List Byte)
  | [] => []
  | Deferred.poolPut buf :: rest => buf :: deferredPuts rest
  | _ :: rest => deferredPuts rest

/-- The buffers taken from the pool, in order. -/
def acquired : List Event → List (List Byte)
  | [] => []
  | Event.get buf :: rest => buf :: acquired rest
  | _ :: rest => acquired rest

/-- The buffers put back into the pool, in order. -/
def released : List Event → List (List Byte)
  | [] => []
  | Event.put buf :: rest => buf :: released rest
  | _ :: rest => released rest

/-! ## Example inputs -/

/-- Three artifacts `A`, `B` and `C` whose profiles total 50 ms, 10 ms and
30 ms, in nanoseconds; `D` opens and does not parse; no other path opens. -/
def exampleWorld : World :=
  { osOpen := fun path =>
      if path = "results/A" then Except.ok { contents := [1] }
      else if path = "results/B" then Except.ok { contents := [2] }
      else if path = "results/C" then Except.ok { contents := [3] }
      else if path = "results/D" then Except.ok { contents := [4] }
      else Except.error "no such file"
    parse := fun f =>
      if f.contents = [1] then Except.ok { Sample := [{ Value := [50000000] }] }
      else if f.contents = [2] then
        Except.ok { Sample := [{ Value := [4000000, 6000000] }] }
      else if f.contents = [3] then
        Except.ok { Sample := [{ Value := [10000000] }, { Value := [20000000] }] }
      else Except.error "unrecognized profile format" }

/-- A possible value of `message`: 10240 times the letter `a`. -/
def exampleMessage : List Byte := List.replicate 10240 97

/-- One half of `exampleMessage`: 5120 bytes. -/
def exampleHalf : List Byte := List.replicate 5120 97

/-- A write side on which every write succeeds and nothing is written yet. -/
def quietWriter : Writer := { writeErr := fun _ => none, writes := 0, written := [] }

/-- A connection on which the echo of the first message arrives in two chunks
of 5120 bytes, every write succeeding. -/
def halvedConn : Conn :=
  { incoming := [Incoming.data exampleHalf, Incoming.data exampleHalf], out := quietWriter }

/-- A connection the server closes before it sends any reply. -/
def closedConn : Conn := { incoming := [Incoming.eof], out := quietWriter }

/-- A connection the server closes after 100 bytes of the first reply. -/
def cutConn : Conn :=
  { incoming := [Incoming.data (List.replicate 100 97), Incoming.eof], out := quietWriter }

/-- A connection on which two echoes of `exampleMessage` arrive, the first in
one chunk and the second in two halves, every write succeeding. -/
def twoRepliesConn : Conn :=
  { incoming := [Incoming.data exampleMessage, Incoming.data exampleHalf,
      Incoming.data exampleHalf],
    out := quietWriter }

/-- Other tasks that leave the pool alone. -/
def noOthers : Nat → Pool → Pool := fun _ pool => pool

/-! ## Analyzer: lemmas on totals -/

theorem int64_int64_add (a b : Int) : int64 (int64 a + b) = int64 (a + b) := by
  unfold int64
  omega

theorem int64_idem (a : Int) : int64 (int64 a) = int64 a := by
  unfold int64
  omega

theorem int64_of_range (a : Int) (h₁ : -(2 ^ 63) ≤ a) (h₂ : a < 2 ^ 63) : int64 a = a := by
  unfold int64
  omega

theorem foldl_int64_add (vs : List Int) (t : Int) :
    int64 (vs.foldl (fun t value => int64 (t + value)) t) = int64 (t + vs.sum) := by
  induction vs generalizing t with
  | nil => simp
  | cons v vs ih =>
    rw [List.foldl_cons, ih, int64_int64_add, List.sum_cons, add_assoc]

theorem foldl_int64_fixed (vs : List Int) (t : Int) (ht : int64 t = t) :
    int64 (vs.foldl (fun t value => int64 (t + value)) t)
      = vs.foldl (fun t value => int64 (t + value)) t := by
  induction vs generalizing t with
  | nil => simpa using ht
  | cons v vs ih => exact ih _ (int64_idem _)

theorem addSample_wrap (t : Int) (s : Sample) :
    int64 (addSample t s) = int64 (t + s.Value.sum) :=
  foldl_int64_add s.Value t

theorem addSample_fixed (t : Int) (s : Sample) (ht : int64 t = t) :
    int64 (addSample t s) = addSample t s :=
  foldl_int64_fixed s.Value t ht

theorem foldl_addSample (ss : List Sample) (t : Int) (ht : int64 t = t) :
    int64 (ss.foldl addSample t) = ss.foldl addSample t ∧
      ss.foldl addSample t = int64 (t + (ss.map fun s => s.Value.sum).sum) := by
  induction ss generalizing t with
  | nil => simp [ht]
  | cons s ss ih =>
    have h := ih (addSample t s) (addSample_fixed t s ht)
    refine ⟨h.1, ?_⟩
    rw [List.foldl_cons, h.2, List.map_cons, List.sum_cons, ← add_assoc]
    calc int64 (addSample t s + (ss.map fun s => s.Value.sum).sum)
        = int64 (int64 (addSample t s) + (ss.map fun s => s.Value.sum).sum) :=
          (int64_int64_add _ _).symm
      _ = int64 (int64 (t + s.Value.sum) + (ss.map fun s => s.Value.sum).sum) := by
          rw [addSample_wrap]
      _ = int64 (t + s.Value.sum + (ss.map fun s => s.Value.sum).sum) :=
          int64_int64_add _ _

theorem totalTime_eq (prof : Profile) : totalTime prof = int64 (sampledSum prof) := by
  have h := (foldl_addSample prof.Sample 0 (by decide)).2
  simpa [totalTime, sampledSum] using h

/-! ## Analyzer: lemmas on loading -/

theorem loadStep_snd (w : World) (st : List Line × List ProfileInfo) (p : String) :
    (loadStep w st p).2 = st.2 ++ (entryOf w p).toList := by
  unfold loadStep entryOf
  cases h₁ : w.osOpen ("results/" ++ p) with
  | error e => simp
  | ok f => cases h₂ : w.parse f <;> simp [h₂]

theorem foldl_loadStep_snd (w : World) (paths : List String)
    (st : List Line × List ProfileInfo) :
    (paths.foldl (loadStep w) st).2 = st.2 ++ paths.filterMap (entryOf w) := by
  induction paths generalizing st with
  | nil => simp
  | cons p ps ih =>
    rw [List.foldl_cons, ih, loadStep_snd]
    cases h : entryOf w p <;> simp [List.filterMap_cons, h]

theorem loadLoop_snd (w : World) (paths : List String) :
    (loadLoop w paths).2 = paths.filterMap (entryOf w) := by
  simp [loadLoop, foldl_loadStep_snd]

theorem loads_eq_isSome (w : World) (p : String) : loads w p = (entryOf w p).isSome := by
  unfold loads entryOf
  cases h₁ : w.osOpen ("results/" ++ p) with
  | error e => rfl
  | ok f => cases h₂ : w.parse f <;> simp [h₂]

theorem filterMap_entryOf_filter (w : World) (paths : List String) :
    (paths.filter (loads w)).filterMap (entryOf w) = paths.filterMap (entryOf w) := by
  induction paths with
  | nil => rfl
  | cons p ps ih =>
    cases h : entryOf w p with
    | none => simp [List.filter_cons, List.filterMap_cons, loads_eq_isSome, h, ih]
    | some e => simp [List.filter_cons, List.filterMap_cons, loads_eq_isSome, h, ih]

theorem entryOf_name (w : World) (p : String) (e : ProfileInfo) (h : entryOf w p = some e) :
    e.Name = p := by
  unfold entryOf at h
  cases h₁ : w.osOpen ("results/" ++ p) with
  | error err => simp [h₁] at h
  | ok f =>
    cases h₂ : w.parse f with
    | error err => simp [h₁, h₂] at h
    | ok prof =>
      simp [h₁, h₂] at h
      rw [← h]

/-! ## Analyzer: lemmas on the insertion sort -/

theorem getElem?_prefix_fst (A : List ProfileInfo) (y : ProfileInfo) (B : List ProfileInfo) :
    (A ++ y :: B)[A.length]? = some y := by
  rw [List.getElem?_append_right (Nat.le_refl _)]
  simp

theorem getElem?_prefix_snd (A : List ProfileInfo) (y x : ProfileInfo) (B : List ProfileInfo) :
    (A ++ y :: x :: B)[A.length + 1]? = some x := by
  rw [List.getElem?_append_right (by omega)]
  simp

theorem swap_adjacent (A : List ProfileInfo) (y x : ProfileInfo) (B : List ProfileInfo) :
    swap (A ++ y :: x :: B) (A.length + 1) A.length = A ++ x :: y :: B := by
  unfold swap
  rw [getElem?_prefix_snd, getElem?_prefix_fst]
  simp only []
  rw [List.set_append_right _ _ (by omega)]
  simp

theorem less_adjacent (A : List ProfileInfo) (y x : ProfileInfo) (B : List ProfileInfo) :
    less (A ++ y :: x :: B) (A.length + 1) A.length = decide (x.CPUTime < y.CPUTime) := by
  unfold less
  rw [getElem?_prefix_snd, getElem?_prefix_fst]

theorem insertBack_append (r : List ProfileInfo) (x : ProfileInfo) (acc rest : List ProfileInfo) :
    insertBack r x (acc ++ rest) = insertBack r x acc ++ rest := by
  induction r generalizing acc with
  | nil => simp [insertBack]
  | cons y r ih =>
    unfold insertBack
    split
    · exact ih (y :: acc)
    · simp

theorem insertionInner_eq (r : List ProfileInfo) (x : ProfileInfo) (B : List ProfileInfo) :
    insertionInner 0 (r.reverse ++ x :: B) r.length = insertBack r x B := by
  induction r generalizing B with
  | nil => simp [insertionInner, insertBack]
  | cons y r ih =>
    have hlen : (r.reverse).length = r.length := List.length_reverse r
    have hdata : (y :: r).reverse ++ x :: B = r.reverse ++ y :: x :: B := by simp
    rw [hdata, List.length_cons]
    unfold insertionInner insertBack
    have hl := less_adjacent r.reverse y x B
    have hs := swap_adjacent r.reverse y x B
    rw [hlen] at hl hs
    rw [hl, hs]
    by_cases hxy : x.CPUTime < y.CPUTime
    · simp [hxy, ih]
    · simp [hxy]

theorem foldl_insertionInner (rest done : List ProfileInfo) :
    (List.range' done.length rest.length).foldl (fun d i => insertionInner 0 d i) (done ++ rest)
      = insertAll done rest := by
  induction rest generalizing done with
  | nil => simp [insertAll]
  | cons x rest ih =>
    rw [List.length_cons, List.range'_succ, List.foldl_cons]
    have h := insertionInner_eq done.reverse x rest
    rw [List.reverse_reverse, List.length_reverse] at h
    rw [h]
    have hb := insertBack_append done.reverse x [] rest
    rw [List.nil_append] at hb
    rw [hb]
    have hlen : (insertBack done.reverse x []).length = done.length + 1 := by
      have : ∀ (r : List ProfileInfo) (acc : List ProfileInfo),
          (insertBack r x acc).length = r.length + acc.length + 1 := by
        intro r
        induction r with
        | nil => intro acc; simp [insertBack]
        | cons y r ihr =>
          intro acc
          unfold insertBack
          split
          · rw [ihr]; simp; omega
          · simp; omega
      simpa using this done.reverse []
    rw [← hlen]
    exact ih _

theorem sortSlice_eq (data : List ProfileInfo) : sortSlice data = insertAll [] data := by
  unfold sortSlice insertionSort_func
  cases data with
  | nil => simp [insertAll]
  | cons x rest =>
    have h := foldl_insertionInner rest [x]
    simp only [List.length_cons, List.length_nil, List.singleton_append] at h
    simpa [insertAll, insertBack] using h


theorem insertBack_perm (r : List ProfileInfo) (x : ProfileInfo) (acc : List ProfileInfo) :
    (insertBack r x acc).Perm (r.reverse ++ x :: acc) := by
  induction r generalizing acc with
  | nil => simp [insertBack]
  | cons y r ih =>
    unfold insertBack
    split
    · refine (ih (y :: acc)).trans ?_
      rw [List.reverse_cons, List.append_assoc]
      exact List.Perm.append_left _ (List.Perm.swap y x acc)
    · exact List.Perm.refl _

theorem insertBack_withTotal (t : Int) (r : List ProfileInfo) (x : ProfileInfo)
    (acc : List ProfileInfo) :
    withTotal t (insertBack r x acc) = withTotal t (r.reverse ++ x :: acc) := by
  induction r generalizing acc with
  | nil => simp [insertBack]
  | cons y r ih =>
    unfold insertBack
    split
    · rename_i hxy
      rw [ih (y :: acc)]
      unfold withTotal
      rw [List.reverse_cons, List.append_assoc]
      simp only [List.filter_append, List.singleton_append, List.filter_cons]
      by_cases hx : x.CPUTime = t <;> by_cases hy : y.CPUTime = t <;> simp [hx, hy]
      omega
    · rfl

theorem insertBack_ascending (r : List ProfileInfo) (x : ProfileInfo) (acc : List ProfileInfo)
    (h : Ascending (r.reverse ++ acc)) (hx : ∀ z ∈ acc, x.CPUTime < z.CPUTime) :
    Ascending (insertBack r x acc) := by
  induction r generalizing acc with
  | nil =>
    simp only [insertBack]
    simp only [List.reverse_nil, List.nil_append] at h
    exact List.Pairwise.cons (fun z hz => le_of_lt (hx z hz)) h
  | cons y r ih =>
    unfold insertBack
    have h' : Ascending (r.reverse ++ y :: acc) := by
      simpa [List.reverse_cons, List.append_assoc] using h
    split
    · rename_i hxy
      refine ih (y :: acc) h' ?_
      intro z hz
      rcases List.mem_cons.mp hz with rfl | hz
      · exact hxy
      · exact hx z hz
    · rename_i hxy
      have hyx : y.CPUTime ≤ x.CPUTime := not_lt.mp hxy
      rw [List.reverse_cons, List.append_assoc]
      unfold Ascending at h' ⊢
      rw [List.pairwise_append] at h' ⊢
      obtain ⟨h₁, h₂, h₃⟩ := h'
      rw [List.singleton_append]
      rw [List.pairwise_cons] at h₂
      refine ⟨h₁, ?_, ?_⟩
      · refine List.Pairwise.cons ?_ (List.Pairwise.cons ?_ h₂.2)
        · intro z hz
          rcases List.mem_cons.mp hz with rfl | hz
          · exact hyx
          · exact h₂.1 z hz
        · exact fun z hz => le_of_lt (hx z hz)
      · intro a ha b hb
        rcases List.mem_cons.mp hb with rfl | hb
        · exact h₃ a ha _ (List.mem_cons_self _ _)
        · rcases List.mem_cons.mp hb with rfl | hb
          · exact le_trans (h₃ a ha y (List.mem_cons_self _ _)) hyx
          · exact h₃ a ha b (List.mem_cons_of_mem _ hb)

theorem insertAll_perm (done rest : List ProfileInfo) :
    (insertAll done rest).Perm (done ++ rest) := by
  induction rest generalizing done with
  | nil => simp [insertAll]
  | cons x rest ih =>
    unfold insertAll
    refine (ih _).trans ?_
    have h := insertBack_perm done.reverse x []
    rw [List.reverse_reverse] at h
    have h₂ := List.Perm.append_right rest h
    simpa using h₂

theorem insertAll_withTotal (t : Int) (done rest : List ProfileInfo) :
    withTotal t (insertAll done rest) = withTotal t (done ++ rest) := by
  induction rest generalizing done with
  | nil => simp [insertAll]
  | cons x rest ih =>
    unfold insertAll
    rw [ih]
    have h := insertBack_withTotal t done.reverse x []
    rw [List.reverse_reverse] at h
    unfold withTotal at h ⊢
    rw [List.filter_append, h, ← List.filter_append, List.append_assoc, List.singleton_append]

theorem insertAll_ascending (done rest : List ProfileInfo) (h : Ascending done) :
    Ascending (insertAll done rest) := by
  induction rest generalizing done with
  | nil => simpa [insertAll] using h
  | cons x rest ih =>
    unfold insertAll
    refine ih _ (insertBack_ascending done.reverse x [] ?_ ?_)
    · simpa using h
    · intro z hz
      cases hz

theorem sortSlice_perm (data : List ProfileInfo) : (sortSlice data).Perm data := by
  rw [sortSlice_eq]
  simpa using insertAll_perm [] data

theorem sortSlice_ascending (data : List ProfileInfo) : Ascending (sortSlice data) := by
  rw [sortSlice_eq]
  exact insertAll_ascending [] data List.Pairwise.nil

theorem sortSlice_withTotal (t : Int) (data : List ProfileInfo) :
    withTotal t (sortSlice data) = withTotal t data := by
  rw [sortSlice_eq]
  simpa using insertAll_withTotal t [] data

/-! ## Echo server: lemmas -/

theorem Writer.Write_ok_at (w : Writer) (p : List Byte) (h : w.writeErr w.writes = none) :
    w.Write p = (none, { w with writes := w.writes + 1, written := w.written ++ [p] }) := by
  unfold Writer.Write
  rw [h]

theorem Writer.Write_ok (w : Writer) (p : List Byte) (h : ∀ k, w.writeErr k = none) :
    w.Write p = (none, { w with writes := w.writes + 1, written := w.written ++ [p] }) :=
  Writer.Write_ok_at w p (h _)

theorem handleLoop_nil (out : Writer) (buf : List Byte) :
    handleLoop [] out buf = ([], out) := by
  rw [handleLoop]
  split <;> simp_all [readFrom]

theorem handleLoop_eof (rest : List Incoming) (out : Writer) (buf : List Byte) :
    handleLoop (Incoming.eof :: rest) out buf = (Incoming.eof :: rest, out) := by
  rw [handleLoop]
  split <;> simp_all [readFrom]

theorem handleLoop_failure (err : String) (rest : List Incoming) (out : Writer)
    (buf : List Byte) :
    handleLoop (Incoming.failure err :: rest) out buf = (Incoming.failure err :: rest, out) := by
  rw [handleLoop]
  split
  · simp_all [readFrom]
  · simp_all [readFrom]
  · rename_i err' rest' hr
    simp only [readFrom, Option.some.injEq, Prod.mk.injEq, ReadResult.failed.injEq] at hr
    obtain ⟨_, h₂⟩ := hr
    subst h₂
    rfl
  · simp_all [readFrom]

theorem handleLoop_data (chunk : List Byte) (rest : List Incoming) (out : Writer)
    (buf : List Byte) :
    handleLoop (Incoming.data chunk :: rest) out buf =
      match out.Write ((chunk.take bufferSize ++ buf.drop (chunk.take bufferSize).length).take
          (chunk.take bufferSize).length) with
      | (some _, out₁) =>
        (if chunk.drop bufferSize = [] then rest
          else Incoming.data (chunk.drop bufferSize) :: rest, out₁)
      | (none, out₁) =>
        handleLoop (if chunk.drop bufferSize = [] then rest
          else Incoming.data (chunk.drop bufferSize) :: rest) out₁
          (chunk.take bufferSize ++ buf.drop (chunk.take bufferSize).length) := by
  rw [handleLoop]
  split
  · simp_all [readFrom]
  · simp_all [readFrom]
  · simp_all [readFrom]
  · rename_i bytes rest' hr
    simp only [readFrom, Option.some.injEq, Prod.mk.injEq, ReadResult.got.injEq] at hr
    obtain ⟨h₁, h₂⟩ := hr
    subst h₁ h₂
    rfl

theorem handleLoop_bytes (n : Nat) (incoming : List Incoming) (out : Writer) (buf : List Byte)
    (hn : pendingSize incoming ≤ n) (hw : ∀ k, out.writeErr k = none) :
    (handleLoop incoming out buf).2.bytes = out.bytes ++ readable incoming := by
  induction n generalizing incoming out buf with
  | zero =>
    cases incoming with
    | nil => simp [handleLoop_nil, readable]
    | cons ev tail => cases ev <;> simp [pendingSize] at hn
  | succ n ih =>
    cases incoming with
    | nil => simp [handleLoop_nil, readable]
    | cons ev tail =>
      cases ev with
      | eof => simp [handleLoop_eof, readable]
      | failure err => simp [handleLoop_failure, readable]
      | data chunk =>
        rw [handleLoop_data, Writer.Write_ok _ _ hw]
        simp only []
        have hsize : pendingSize (if chunk.drop bufferSize = [] then tail
            else Incoming.data (chunk.drop bufferSize) :: tail) ≤ n := by
          by_cases hd : chunk.drop bufferSize = []
          · simp only [hd, if_true]
            simp only [pendingSize] at hn
            omega
          · have hlen : bufferSize < chunk.length := by
              by_contra hc
              exact hd (List.drop_eq_nil_of_le (not_lt.mp hc))
            have hpos : 0 < bufferSize := by decide
            simp only [hd, if_false, pendingSize, List.length_drop] at hn ⊢
            omega
        rw [ih _ _ _ hsize (by simpa using hw)]
        simp only [Writer.bytes, List.flatten_append, List.flatten_cons, List.flatten_nil,
          List.append_nil, List.take_left', List.append_assoc, readable]
        congr 1
        by_cases hd : chunk.drop bufferSize = []
        · have : chunk.take bufferSize = chunk := by
            have := List.take_append_drop bufferSize chunk
            rw [hd, List.append_nil] at this
            exact this
          simp [hd, this]
        · simp only [hd, if_false, readable, ← List.append_assoc, List.take_append_drop]


/-! ## Analyzer: lemmas on the top three -/

theorem top3From_eq (profileInfos : List ProfileInfo) (remaining i : Nat) :
    ∃ lines, top3From profileInfos remaining i = some lines ∧
      topEntries lines = (profileInfos.drop i).take remaining := by
  induction remaining generalizing i with
  | zero => exact ⟨[], rfl, by simp [topEntries]⟩
  | succ k ih =>
    unfold top3From
    by_cases hi : i < profileInfos.length
    · obtain ⟨rest, hrest, hent⟩ := ih (i + 1)
      refine ⟨Line.topLine (i + 1) profileInfos[i] :: rest, ?_, ?_⟩
      · simp [hi, List.getElem?_eq_getElem hi, hrest]
      · rw [topEntries, hent, List.drop_eq_getElem_cons hi, List.take_succ_cons]
    · refine ⟨[], by simp [hi], ?_⟩
      rw [List.drop_eq_nil_of_le (not_lt.mp hi)]
      simp [topEntries]

theorem top3_eq (w : World) (paths : List String) :
    top3 w paths = some ((ranking w paths).take 3) := by
  obtain ⟨lines, hl, he⟩ := top3From_eq (ranking w paths) 3 0
  simp [top3, top3Lines, hl, he]

theorem ranking_filter_loads (w : World) (paths : List String) :
    ranking w (paths.filter (loads w)) = ranking w paths := by
  simp [ranking, loadLoop_snd, filterMap_entryOf_filter]

theorem filterMap_entryOf_names (w : World) (paths : List String) :
    ((paths.filterMap (entryOf w)).map fun e => e.Name) = paths.filter (loads w) := by
  induction paths with
  | nil => rfl
  | cons p ps ih =>
    cases h : entryOf w p with
    | none => simp [List.filter_cons, List.filterMap_cons, loads_eq_isSome, h, ih]
    | some e =>
      simp [List.filter_cons, List.filterMap_cons, loads_eq_isSome, h, ih,
        entryOf_name w p e h]


/-! ## Analyzer: the claims -/

/-- C1: for a profile that opens and parses, the entry the analyzer appends
carries the artifact's name and, as `CPUTime`, the sum of every value of every
sample in `int64` arithmetic: the integer sum wrapped to 64 bits, hence the
integer sum itself whenever that fits an `int64`; a profile with no samples
gets total 0. -/
theorem C1_total_is_sum_of_values (w : World) (st : List Line × List ProfileInfo)
    (profilePath : String) (f : File) (prof : Profile)
    (hopen : w.osOpen ("results/" ++ profilePath) = Except.ok f)
    (hparse : w.parse f = Except.ok prof) :
    loadStep w st profilePath
        = (st.1, st.2 ++ [{ Name := profilePath, CPUTime := int64 (sampledSum prof) }]) ∧
      totalTime prof = int64 (sampledSum prof) ∧
      (-(2 ^ 63) ≤ sampledSum prof → sampledSum prof < 2 ^ 63 →
        totalTime prof = sampledSum prof) ∧
      (prof.Sample = [] → totalTime prof = 0) := by
  refine ⟨?_, totalTime_eq prof, ?_, ?_⟩
  · unfold loadStep
    simp only [hopen, hparse, totalTime_eq]
  · intro h₁ h₂
    rw [totalTime_eq, int64_of_range _ h₁ h₂]
  · intro h
    simp [totalTime, h]

/-- C1 at a concrete input: artifact `B` of the example world, whose samples
hold 4000000 and 6000000. -/
theorem C1_total_is_sum_of_values_witness :
    exampleWorld.osOpen ("results/" ++ "B") = Except.ok { contents := [2] } ∧
      exampleWorld.parse { contents := [2] }
        = Except.ok { Sample := [{ Value := [4000000, 6000000] }] } ∧
      loadStep exampleWorld ([], []) "B"
        = ([], [] ++ [ProfileInfo.mk "B"
              (int64 (sampledSum { Sample := [{ Value := [4000000, 6000000] }] }))]) :=
  ⟨rfl, rfl,
    (C1_total_is_sum_of_values exampleWorld ([], []) "B" { contents := [2] }
      { Sample := [{ Value := [4000000, 6000000] }] } rfl rfl).1⟩

/-- C2: for every artifact list and every outcome of loading, the printed
ranking is a permutation of the entries of the artifacts that loaded, and it is
ascending by total: each entry's `CPUTime` is at most that of the entry after
it (and of every later entry). -/
theorem C2_ranking_sorted_permutation (w : World) (paths : List String) :
    (ranking w paths).Perm (loadLoop w paths).2 ∧
      (loadLoop w paths).2 = paths.filterMap (entryOf w) ∧
      List.Chain' (fun a b => a.CPUTime ≤ b.CPUTime) (ranking w paths) ∧
      Ascending (ranking w paths) := by
  refine ⟨sortSlice_perm _, loadLoop_snd w paths, ?_, sortSlice_ascending _⟩
  exact List.Pairwise.chain' (sortSlice_ascending _)

/-- C3: the analyzer does not abort on artifacts that fail to open or to
parse, and its ranking and top three are those of the list without the failing
artifacts; the entries are those of the artifacts that load, one each, in list
order, under the artifact's own name, and a failing artifact has no entry. -/
theorem C3_failing_artifacts_skipped (w : World) (paths : List String) :
    (main w paths).isSome = true ∧
      ranking w paths = ranking w (paths.filter (loads w)) ∧
      top3 w paths = top3 w (paths.filter (loads w)) ∧
      (loadLoop w paths).2 = (paths.filter (loads w)).filterMap (entryOf w) ∧
      ((loadLoop w paths).2.map fun e => e.Name) = paths.filter (loads w) ∧
      (∀ p, loads w p = false → entryOf w p = none) ∧
      (∀ p, loads w p = true → ∃ f prof, w.osOpen ("results/" ++ p) = Except.ok f ∧
        w.parse f = Except.ok prof ∧
        entryOf w p = some { Name := p, CPUTime := totalTime prof }) := by
  have hr := ranking_filter_loads w paths
  refine ⟨?_, hr.symm, ?_, ?_, ?_, ?_, ?_⟩
  · obtain ⟨lines, hl, _⟩ := top3From_eq (sortSlice (loadLoop w paths).2) 3 0
    simp [main, top3Lines, hl]
  · rw [top3_eq, top3_eq, hr]
  · rw [loadLoop_snd, filterMap_entryOf_filter]
  · rw [loadLoop_snd]
    exact filterMap_entryOf_names w paths
  · intro p hp
    have h := loads_eq_isSome w p
    rw [hp] at h
    cases he : entryOf w p with
    | none => rfl
    | some e => simp [he] at h
  · intro p hp
    unfold loads at hp
    unfold entryOf
    cases h₁ : w.osOpen ("results/" ++ p) with
    | error err => simp [h₁] at hp
    | ok f =>
      cases h₂ : w.parse f with
      | error err => simp [h₁, h₂] at hp
      | ok prof => exact ⟨f, prof, rfl, h₂, by simp [h₂]⟩

/-- C4: for every slice, the top-three loop prints its first `min 3 n` entries
in order and never indexes outside it; so the analyzer's top three are the
first `min 3 n` entries of its ranking. On artifacts totalling A = 50 ms,
B = 10 ms and C = 30 ms the ranking is B, C, A and the top three are the whole
ranking. -/
theorem C4_top_three_is_prefix (profileInfos : List ProfileInfo) (w : World)
    (paths : List String) :
    (top3Lines profileInfos).map topEntries = some (profileInfos.take 3) ∧
      (profileInfos.take 3).length = min 3 profileInfos.length ∧
      (top3Lines []).map topEntries = some [] ∧
      top3 w paths = some ((ranking w paths).take 3) ∧
      ranking exampleWorld ["A", "B", "C"]
        = [{ Name := "B", CPUTime := 10000000 }, { Name := "C", CPUTime := 30000000 },
           { Name := "A", CPUTime := 50000000 }] ∧
      top3 exampleWorld ["A", "B", "C"] = some (ranking exampleWorld ["A", "B", "C"]) := by
  refine ⟨?_, ?_, by decide, top3_eq w paths, by decide, by decide⟩
  · obtain ⟨lines, hl, he⟩ := top3From_eq profileInfos 3 0
    simp [top3Lines, hl, he]
  · simp [List.length_take]

/-- C8: over the fixed list `profiles`, the entries of the ranking that share a
total `t` are the loaded entries with that total in the order of loading, and
their names follow one another as in `profiles`: the sort keeps ties in
artifact enumeration order. -/
theorem C8_ties_keep_enumeration_order (w : World) (t : Int) :
    withTotal t (ranking w profiles) = withTotal t (loadLoop w profiles).2 ∧
      (loadLoop w profiles).2.length ≤ maxInsertion ∧
      ((loadLoop w profiles).2.map fun e => e.Name).Sublist profiles ∧
      ((withTotal t (ranking w profiles)).map fun e => e.Name).Sublist profiles := by
  have hnames := filterMap_entryOf_names w profiles
  have hsub : ((loadLoop w profiles).2.map fun e => e.Name).Sublist profiles := by
    rw [loadLoop_snd, hnames]
    exact List.filter_sublist _
  refine ⟨sortSlice_withTotal t _, ?_, hsub, ?_⟩
  · have h := hsub.length_le
    rw [List.length_map] at h
    exact le_trans h (by decide)
  · rw [ranking, sortSlice_withTotal]
    exact ((List.filter_sublist _).map _).trans hsub


/-! ## Echo server: the claim -/

theorem readable_chunks (chunks : List (List Byte)) (tail : List Incoming)
    (hstop : ∀ chunk rest, tail ≠ Incoming.data chunk :: rest) :
    readable (chunks.map Incoming.data ++ tail) = chunks.flatten := by
  induction chunks with
  | nil =>
    cases tail with
    | nil => rfl
    | cons ev rest =>
      cases ev with
      | data chunk => exact absurd rfl (hstop chunk rest)
      | eof => rfl
      | failure err => rfl
  | cons c cs ih => simp [readable, ih]

/-- C5: whatever chunks arrive on a connection before its first close or read
error, and however they are cut up, when every write succeeds the bytes
`handleConnection` writes back are, concatenated, exactly the bytes of those
chunks in order; nothing that comes after the close or the error is written. -/
theorem C5_echo_round_trip (chunks : List (List Byte)) (tail : List Incoming) (out : Writer)
    (hstop : ∀ chunk rest, tail ≠ Incoming.data chunk :: rest)
    (hw : ∀ k, out.writeErr k = none) :
    (handleConnection { incoming := chunks.map Incoming.data ++ tail, out := out }).out.bytes
      = out.bytes ++ chunks.flatten := by
  unfold handleConnection
  simp only []
  rw [handleLoop_bytes _ _ _ _ (Nat.le_refl _) hw, readable_chunks chunks tail hstop]

/-- C5 at a concrete input: the chunks `1 2` and `3`, then the close, then a
chunk that is never read. -/
theorem C5_echo_round_trip_witness :
    (∀ chunk rest, [Incoming.eof, Incoming.data [9]] ≠ Incoming.data chunk :: rest) ∧
      (∀ k : Nat, (fun _ => none : Nat → Option String) k = none) ∧
      (handleConnection
          { incoming := [[1, 2], [3]].map Incoming.data ++ [Incoming.eof, Incoming.data [9]],
            out := { writeErr := fun _ => none, writes := 0, written := [] } }).out.bytes
        = [1, 2, 3] :=
  ⟨by simp, fun _ => rfl,
    C5_echo_round_trip [[1, 2], [3]] [Incoming.eof, Incoming.data [9]]
      { writeErr := fun _ => none, writes := 0, written := [] } (by simp) (fun _ => rfl)⟩


/-! ## Client receive steps: lemmas -/

theorem readAtLeast_done (min : Nat) (incoming : List Incoming) (got : List Byte)
    (h : ¬ got.length < min) :
    readAtLeast min incoming got = some (Received.ok got, incoming) := by
  rw [readAtLeast]
  simp [h]

theorem readAtLeast_nil (min : Nat) (got : List Byte) (h : got.length < min) :
    readAtLeast min [] got = none := by
  rw [readAtLeast]
  simp only [h, dite_true]
  split <;> simp_all [readFrom]

theorem readAtLeast_eof (min : Nat) (rest : List Incoming) (got : List Byte)
    (h : got.length < min) :
    readAtLeast min (Incoming.eof :: rest) got
      = some (Received.err (if got.length = 0 then "EOF" else "unexpected EOF") got,
          Incoming.eof :: rest) := by
  rw [readAtLeast]
  simp only [h, dite_true]
  split
  · simp_all [readFrom]
  · rename_i rest' hr
    simp only [readFrom, Option.some.injEq, Prod.mk.injEq, true_and] at hr
    subst hr
    rfl
  · simp_all [readFrom]
  · simp_all [readFrom]

theorem readAtLeast_failure (min : Nat) (err : String) (rest : List Incoming)
    (got : List Byte) (h : got.length < min) :
    readAtLeast min (Incoming.failure err :: rest) got
      = some (Received.err err got, Incoming.failure err :: rest) := by
  rw [readAtLeast]
  simp only [h, dite_true]
  split
  · simp_all [readFrom]
  · simp_all [readFrom]
  · rename_i err' rest' hr
    simp only [readFrom, Option.some.injEq, Prod.mk.injEq, ReadResult.failed.injEq] at hr
    obtain ⟨h₁, h₂⟩ := hr
    subst h₁ h₂
    rfl
  · simp_all [readFrom]

theorem readAtLeast_data (min : Nat) (chunk : List Byte) (rest : List Incoming)
    (got : List Byte) (h : got.length < min) :
    readAtLeast min (Incoming.data chunk :: rest) got
      = readAtLeast min
          (if chunk.drop (min - got.length) = [] then rest
            else Incoming.data (chunk.drop (min - got.length)) :: rest)
          (got ++ chunk.take (min - got.length)) := by
  rw [readAtLeast]
  simp only [h, dite_true]
  split
  · simp_all [readFrom]
  · simp_all [readFrom]
  · simp_all [readFrom]
  · rename_i bytes rest' hr
    simp only [readFrom, Option.some.injEq, Prod.mk.injEq, ReadResult.got.injEq] at hr
    obtain ⟨h₁, h₂⟩ := hr
    subst h₁ h₂
    rfl

/-- Read-full on a reply that arrives in chunks: when the chunks are non-empty
and, with what is already in `resp`, sum to exactly `min` bytes, the loop
returns all of them, in order, and leaves the rest of the stream unread. -/
theorem readAtLeast_chunks (min : Nat) (chunks : List (List Byte)) (rest : List Incoming)
    (got : List Byte) (hne : ∀ c ∈ chunks, c ≠ [])
    (hsum : got.length + chunks.flatten.length = min) :
    readAtLeast min (chunks.map Incoming.data ++ rest) got
      = some (Received.ok (got ++ chunks.flatten), rest) := by
  induction chunks generalizing got with
  | nil =>
    simp only [List.flatten_nil, List.length_nil, Nat.add_zero] at hsum
    simp only [List.map_nil, List.nil_append, List.flatten_nil, List.append_nil]
    exact readAtLeast_done _ _ _ (by omega)
  | cons c cs ih =>
    have hc : c ≠ [] := hne c (List.mem_cons_self _ _)
    have hclen : 0 < c.length := List.length_pos.mpr hc
    simp only [List.flatten_cons, List.length_append] at hsum
    have hlt : got.length < min := by omega
    have hle : c.length ≤ min - got.length := by omega
    rw [List.map_cons, List.cons_append, readAtLeast_data _ _ _ _ hlt,
      List.drop_eq_nil_of_le hle, List.take_of_length_le hle]
    simp only [if_true]
    rw [ih (got ++ c) (fun x hx => hne x (List.mem_cons_of_mem _ hx))
      (by rw [List.length_append]; omega)]
    simp

theorem rawRead_chunk (messageLength : Nat) (chunk : List Byte) (rest : List Incoming)
    (h : chunk.length ≤ messageLength) :
    rawRead messageLength (Incoming.data chunk :: rest) = some (Received.ok chunk, rest) := by
  simp [rawRead, readFrom, List.drop_eq_nil_of_le h, List.take_of_length_le h]

theorem rawRead_eof (messageLength : Nat) (rest : List Incoming) :
    rawRead messageLength (Incoming.eof :: rest)
      = some (Received.ok [], Incoming.eof :: rest) := by
  simp [rawRead, readFrom]

/-! ## Client loops: lemmas -/

theorem exchangeLoop_step (recv : Nat → List Incoming → Option (Received × List Incoming))
    (writeMsg readMsg : String) (message : List Byte) (remaining n : Nat) (conn : Conn)
    (bytes : List Byte) (rest : List Incoming)
    (hw : conn.out.writeErr conn.out.writes = none)
    (hr : recv message.length conn.incoming = some (Received.ok bytes, rest)) :
    (exchangeLoop recv writeMsg readMsg message (remaining + 1) n conn).events
        = Event.send n :: Event.received n bytes ::
          (exchangeLoop recv writeMsg readMsg message remaining (n + 1)
            { incoming := rest,
              out := { conn.out with writes := conn.out.writes + 1,
                                     written := conn.out.written ++ [message] } }).events ∧
      (exchangeLoop recv writeMsg readMsg message (remaining + 1) n conn).outcome
        = (exchangeLoop recv writeMsg readMsg message remaining (n + 1)
            { incoming := rest,
              out := { conn.out with writes := conn.out.writes + 1,
                                     written := conn.out.written ++ [message] } }).outcome := by
  rw [exchangeLoop, Writer.Write_ok_at _ _ hw]
  simp [hr]

theorem exchangeLoop_first_event
    (recv : Nat → List Incoming → Option (Received × List Incoming))
    (writeMsg readMsg : String) (message : List Byte) (remaining n : Nat) (conn : Conn) :
    (exchangeLoop recv writeMsg readMsg message (remaining + 1) n conn).events.take 1
      = [Event.send n] := by
  rw [exchangeLoop]
  cases conn.out.Write message with
  | mk err out₁ =>
    cases err with
    | some e => rfl
    | none =>
      simp only []
      cases recv message.length conn.incoming with
      | none => rfl
      | some res =>
        obtain ⟨rcv, rest⟩ := res
        cases rcv <;> rfl


theorem exampleHalf_length : exampleHalf.length = 5120 :=
  List.length_replicate _ _

theorem exampleMessage_length : exampleMessage.length = 10240 :=
  List.length_replicate _ _

theorem rawLoop_halved (writeMsg readMsg : String) :
    (exchangeLoop rawRead writeMsg readMsg exampleMessage 2 0 halvedConn).events
        = [Event.send 0, Event.received 0 exampleHalf,
           Event.send 1, Event.received 1 exampleHalf] ∧
      (exchangeLoop rawRead writeMsg readMsg exampleMessage 2 0 halvedConn).outcome
        = Outcome.finished := by
  have hle : exampleHalf.length ≤ exampleMessage.length := by
    rw [exampleHalf_length, exampleMessage_length]
    decide
  have h₀ := exchangeLoop_step rawRead writeMsg readMsg exampleMessage 1 0 halvedConn
    exampleHalf [Incoming.data exampleHalf] rfl (rawRead_chunk _ _ _ hle)
  have h₁ := exchangeLoop_step rawRead writeMsg readMsg exampleMessage 0 1
    { incoming := [Incoming.data exampleHalf],
      out := { halvedConn.out with writes := halvedConn.out.writes + 1,
                                   written := halvedConn.out.written ++ [exampleMessage] } }
    exampleHalf [] rfl (rawRead_chunk _ _ _ hle)
  refine ⟨?_, ?_⟩
  · rw [h₀.1, h₁.1]
    rfl
  · rw [h₀.2, h₁.2]
    rfl

/-- C6 at its failing input: the echo of the first 10240-byte message arrives
in two chunks of 5120 bytes. The loops of `BenchmarkSyscall`,
`BenchmarkUnixSyscall` and `BenchmarkReadvWritev` take the first chunk as the
whole reply of iteration 0 and start the send of iteration 1; the loop of
`BenchmarkIoCopy`, on the same connection, ends iteration 0 with all 10240
bytes. -/
theorem C6_raw_read_completes_on_first_chunk :
    exampleHalf.length < exampleMessage.length ∧
      exampleHalf ++ exampleHalf = exampleMessage ∧
      (BenchmarkSyscall exampleMessage 2 halvedConn).events
        = [Event.send 0, Event.received 0 exampleHalf,
           Event.send 1, Event.received 1 exampleHalf] ∧
      (BenchmarkSyscall exampleMessage 2 halvedConn).outcome = Outcome.finished ∧
      (BenchmarkUnixSyscall exampleMessage 2 halvedConn).events
        = [Event.send 0, Event.received 0 exampleHalf,
           Event.send 1, Event.received 1 exampleHalf] ∧
      (BenchmarkReadvWritev exampleMessage 2 halvedConn).events
        = [Event.send 0, Event.received 0 exampleHalf,
           Event.send 1, Event.received 1 exampleHalf] ∧
      (BenchmarkIoCopy exampleMessage 1 halvedConn).events
        = [Event.send 0, Event.received 0 exampleMessage] := by
  have hsplit : exampleHalf ++ exampleHalf = exampleMessage := by
    unfold exampleHalf exampleMessage
    exact List.append_replicate_replicate
  refine ⟨?_, hsplit, (rawLoop_halved _ _).1, (rawLoop_halved _ _).2, (rawLoop_halved _ _).1,
    (rawLoop_halved _ _).1, ?_⟩
  · rw [exampleHalf_length, exampleMessage_length]
    decide
  · have hne : ∀ c ∈ [exampleHalf, exampleHalf], c ≠ [] := by
      intro c hc
      have hlen : c.length = 5120 := by
        rcases List.mem_cons.mp hc with rfl | hc
        · exact exampleHalf_length
        · rcases List.mem_cons.mp hc with rfl | hc
          · exact exampleHalf_length
          · cases hc
      intro h
      rw [h] at hlen
      cases hlen
    have hsum : ([] : List Byte).length + [exampleHalf, exampleHalf].flatten.length
        = exampleMessage.length := by
      rw [List.flatten_cons, List.flatten_cons, List.flatten_nil, List.append_nil, hsplit,
        List.length_nil, Nat.zero_add]
    have hread : ioReadFull exampleMessage.length halvedConn.incoming
        = some (Received.ok exampleMessage, []) := by
      have h := readAtLeast_chunks exampleMessage.length [exampleHalf, exampleHalf] [] []
        hne hsum
      simp only [List.flatten_cons, List.flatten_nil, List.append_nil, List.nil_append,
        hsplit] at h
      exact h
    have h₀ := exchangeLoop_step ioReadFull "Error writing to connection"
      "Error reading from connection" exampleMessage 0 0 halvedConn exampleMessage []
      rfl hread
    unfold BenchmarkIoCopy
    rw [h₀.1]
    rfl


theorem rawLoop_closed (writeMsg readMsg : String) :
    (exchangeLoop rawRead writeMsg readMsg exampleMessage 2 0 closedConn).events
        = [Event.send 0, Event.received 0 [], Event.send 1, Event.received 1 []] ∧
      (exchangeLoop rawRead writeMsg readMsg exampleMessage 2 0 closedConn).outcome
        = Outcome.finished := by
  have h₀ := exchangeLoop_step rawRead writeMsg readMsg exampleMessage 1 0 closedConn
    [] [Incoming.eof] rfl (rawRead_eof _ _)
  have h₁ := exchangeLoop_step rawRead writeMsg readMsg exampleMessage 0 1
    { incoming := [Incoming.eof],
      out := { closedConn.out with writes := closedConn.out.writes + 1,
                                   written := closedConn.out.written ++ [exampleMessage] } }
    [] [Incoming.eof] rfl (rawRead_eof _ _)
  refine ⟨?_, ?_⟩
  · rw [h₀.1, h₁.1]
    rfl
  · rw [h₀.2, h₁.2]
    rfl

theorem rawLoop_cut (writeMsg readMsg : String) :
    (exchangeLoop rawRead writeMsg readMsg exampleMessage 2 0 cutConn).events
        = [Event.send 0, Event.received 0 (List.replicate 100 97),
           Event.send 1, Event.received 1 []] ∧
      (exchangeLoop rawRead writeMsg readMsg exampleMessage 2 0 cutConn).outcome
        = Outcome.finished := by
  have hle : (List.replicate 100 (97 : Byte)).length ≤ exampleMessage.length := by
    rw [List.length_replicate, exampleMessage_length]
    decide
  have h₀ := exchangeLoop_step rawRead writeMsg readMsg exampleMessage 1 0 cutConn
    (List.replicate 100 97) [Incoming.eof] rfl (rawRead_chunk _ _ _ hle)
  have h₁ := exchangeLoop_step rawRead writeMsg readMsg exampleMessage 0 1
    { incoming := [Incoming.eof],
      out := { cutConn.out with writes := cutConn.out.writes + 1,
                                written := cutConn.out.written ++ [exampleMessage] } }
    [] [Incoming.eof] rfl (rawRead_eof _ _)
  refine ⟨?_, ?_⟩
  · rw [h₀.1, h₁.1]
    rfl
  · rw [h₀.2, h₁.2]
    rfl

theorem exchangeLoop_readFull_eof (writeMsg readMsg : String) (message : List Byte)
    (remaining n : Nat) (conn : Conn) (rest : List Incoming)
    (hlen : 0 < message.length) (hw : ∀ k, conn.out.writeErr k = none)
    (hin : conn.incoming = Incoming.eof :: rest) :
    (exchangeLoop ioReadFull writeMsg readMsg message (remaining + 1) n conn).events
        = [Event.send n] ∧
      (exchangeLoop ioReadFull writeMsg readMsg message (remaining + 1) n conn).outcome
        = Outcome.fatal n readMsg := by
  rw [exchangeLoop, Writer.Write_ok _ _ hw]
  have hr : ioReadFull message.length conn.incoming
      = some (Received.err "EOF" [], Incoming.eof :: rest) := by
    rw [hin, ioReadFull, readAtLeast_eof _ _ _ (by simpa using hlen)]
    simp
  simp [hr]

/-- C7 at its failing inputs: the server closes the connection before it sends
any reply, or after 100 of the 10240 bytes. The loops of `BenchmarkUnixSyscall`,
`BenchmarkSyscall` and `BenchmarkReadvWritev` report nothing in iteration 0 and
go on to the send of iteration 1, whether or not that later write succeeds; the
loop of `BenchmarkIoCopy`, on the first connection, stops in iteration 0 with a
fatal failure. -/
theorem C7_raw_read_goes_on_after_close :
    (BenchmarkUnixSyscall exampleMessage 2 closedConn).events
        = [Event.send 0, Event.received 0 [], Event.send 1, Event.received 1 []] ∧
      (BenchmarkUnixSyscall exampleMessage 2 closedConn).outcome = Outcome.finished ∧
      (BenchmarkUnixSyscall exampleMessage 2 cutConn).events
        = [Event.send 0, Event.received 0 (List.replicate 100 97),
           Event.send 1, Event.received 1 []] ∧
      (BenchmarkUnixSyscall exampleMessage 2 cutConn).outcome = Outcome.finished ∧
      (BenchmarkSyscall exampleMessage 2 closedConn).outcome = Outcome.finished ∧
      (BenchmarkReadvWritev exampleMessage 2 closedConn).outcome = Outcome.finished ∧
      (∀ writeErr : Nat → Option String, writeErr 0 = none →
        (BenchmarkUnixSyscall exampleMessage 2
          { incoming := [Incoming.eof],
            out := { writeErr := writeErr, writes := 0, written := [] } }).events.take 3
          = [Event.send 0, Event.received 0 [], Event.send 1]) ∧
      (BenchmarkIoCopy exampleMessage 2 closedConn).events = [Event.send 0] ∧
      (BenchmarkIoCopy exampleMessage 2 closedConn).outcome
        = Outcome.fatal 0 "Error reading from connection" := by
  have hpos : 0 < exampleMessage.length := by
    rw [exampleMessage_length]
    decide
  have hio := exchangeLoop_readFull_eof "Error writing to connection"
    "Error reading from connection" exampleMessage 1 0 closedConn [] hpos (fun _ => rfl) rfl
  refine ⟨(rawLoop_closed _ _).1, (rawLoop_closed _ _).2, (rawLoop_cut _ _).1,
    (rawLoop_cut _ _).2, (rawLoop_closed _ _).2, (rawLoop_closed _ _).2, ?_, hio.1, hio.2⟩
  intro writeErr h₀
  have hstep := exchangeLoop_step rawRead "Error writing to socket" "Error reading from socket"
    exampleMessage 1 0
    { incoming := [Incoming.eof], out := { writeErr := writeErr, writes := 0, written := [] } }
    [] [Incoming.eof] h₀ (rawRead_eof _ _)
  unfold BenchmarkUnixSyscall
  rw [hstep.1, List.take_succ_cons, List.take_succ_cons, exchangeLoop_first_event]


/-! ## Pooled-buffer strategy: lemmas -/

theorem replies_append (xs ys : List Event) : replies (xs ++ ys) = replies xs ++ replies ys := by
  induction xs with
  | nil => rfl
  | cons e xs ih => cases e <;> simp [replies, ih]

theorem acquired_append (xs ys : List Event) :
    acquired (xs ++ ys) = acquired xs ++ acquired ys := by
  induction xs with
  | nil => rfl
  | cons e xs ih => cases e <;> simp [acquired, ih]

theorem released_append (xs ys : List Event) :
    released (xs ++ ys) = released xs ++ released ys := by
  induction xs with
  | nil => rfl
  | cons e xs ih => cases e <;> simp [released, ih]

theorem ioCopyBufferLoop_replies (others : Nat → Pool → Pool) (message : List Byte)
    (remaining n : Nat) (t : Task) :
    replies (ioCopyBufferLoop others message remaining n t).events
      = replies t.events ++
        replies (exchangeLoop ioReadFull "Error writing to connection"
          "Error reading from connection" message remaining n t.conn).events := by
  induction remaining generalizing n t with
  | zero => simp [ioCopyBufferLoop, exchangeLoop, replies]
  | succ r ih =>
    unfold ioCopyBufferLoop exchangeLoop
    cases hw : t.conn.out.Write message with
    | mk err out₁ =>
      cases err with
      | some e => simp [replies_append, replies]
      | none =>
        simp only []
        cases hr : ioReadFull message.length t.conn.incoming with
        | none => simp [replies_append, replies]
        | some res =>
          obtain ⟨rcv, rest⟩ := res
          cases rcv with
          | err msg bytes => simp [replies_append, replies]
          | ok bytes =>
            simp only []
            rw [ih]
            simp [replies_append, replies]

theorem runDeferred_events (others : Nat → Pool → Pool) (ds : List Deferred) (t : Task) :
    replies (runDeferred others ds t).events = replies t.events ∧
      acquired (runDeferred others ds t).events = acquired t.events ∧
      released (runDeferred others ds t).events = released t.events ++ deferredPuts ds ∧
      (runDeferred others ds t).deferred = [] ∧
      (runDeferred others ds t).outcome = t.outcome := by
  induction ds generalizing t with
  | nil => simp [runDeferred, deferredPuts]
  | cons d ds ih =>
    cases d with
    | wgDone =>
      obtain ⟨h₁, h₂, h₃, h₄, h₅⟩ := ih { t with deferred := ds, events := t.events ++ [Event.done] }
      simp only [runDeferred, deferredPuts]
      refine ⟨?_, ?_, ?_, h₄, h₅⟩
      · rw [h₁]; simp [replies_append, replies]
      · rw [h₂]; simp [acquired_append, acquired]
      · rw [h₃]; simp [released_append, released]
    | connClose =>
      obtain ⟨h₁, h₂, h₃, h₄, h₅⟩ := ih { t with deferred := ds, events := t.events ++ [Event.close] }
      simp only [runDeferred, deferredPuts]
      refine ⟨?_, ?_, ?_, h₄, h₅⟩
      · rw [h₁]; simp [replies_append, replies]
      · rw [h₂]; simp [acquired_append, acquired]
      · rw [h₃]; simp [released_append, released]
    | poolPut buf =>
      obtain ⟨h₁, h₂, h₃, h₄, h₅⟩ := ih
        { t with pool := (others t.poolOps t.pool).Put buf, poolOps := t.poolOps + 1,
                 deferred := ds, events := t.events ++ [Event.put buf] }
      simp only [runDeferred, deferredPuts]
      refine ⟨?_, ?_, ?_, h₄, h₅⟩
      · rw [h₁]; simp [replies_append, replies]
      · rw [h₂]; simp [acquired_append, acquired]
      · rw [h₃]; simp [released_append, released]

/-- C9: in the pooled-buffer strategy the replies a client task observes are a
function of what arrives on its own connection: whatever the pool holds,
whatever the other tasks do to the pool between this task's pool calls, the
replies are the same, and they are those of the same loop without the pool
(`BenchmarkIoCopy`). -/
theorem C9_replies_do_not_depend_on_pool (others₁ others₂ : Nat → Pool → Pool)
    (pool₁ pool₂ : Pool) (message : List Byte) (N : Nat) (conn : Conn) :
    replies (BenchmarkIoCopyBuffer others₁ message N conn pool₁).events
        = replies (BenchmarkIoCopyBuffer others₂ message N conn pool₂).events ∧
      replies (BenchmarkIoCopyBuffer others₁ message N conn pool₁).events
        = replies (BenchmarkIoCopy message N conn).events := by
  have key : ∀ (others : Nat → Pool → Pool) (pool : Pool),
      replies (BenchmarkIoCopyBuffer others message N conn pool).events
        = replies (BenchmarkIoCopy message N conn).events := by
    intro others pool
    unfold BenchmarkIoCopyBuffer BenchmarkIoCopy ioCopyBufferAfter
    simp only []
    rw [(runDeferred_events others _ _).1, ioCopyBufferLoop_replies]
    simp [ioCopyBufferStart, replies]
  exact ⟨(key others₁ pool₁).trans (key others₂ pool₂).symm, key others₁ pool₁⟩


theorem ioCopyBufferLoop_held (others : Nat → Pool → Pool) (message : List Byte)
    (remaining n : Nat) (t : Task)
    (hrel : released t.events = [])
    (hheld : deferredPuts t.deferred = (acquired t.events).reverse) :
    released (ioCopyBufferLoop others message remaining n t).events = [] ∧
      deferredPuts (ioCopyBufferLoop others message remaining n t).deferred
        = (acquired (ioCopyBufferLoop others message remaining n t).events).reverse := by
  induction remaining generalizing n t with
  | zero => exact ⟨hrel, hheld⟩
  | succ r ih =>
    unfold ioCopyBufferLoop
    cases hw : t.conn.out.Write message with
    | mk err out₁ =>
      cases err with
      | some e => simp [released_append, released, acquired_append, acquired, hrel, hheld]
      | none =>
        simp only []
        cases hr : ioReadFull message.length t.conn.incoming with
        | none =>
          simp [released_append, released, acquired_append, acquired, hrel, hheld,
            deferredPuts]
        | some res =>
          obtain ⟨rcv, rest⟩ := res
          cases rcv with
          | err msg bytes =>
            simp [released_append, released, acquired_append, acquired, hrel, hheld,
              deferredPuts]
          | ok bytes =>
            simp only []
            apply ih
            · simp [released_append, released, hrel]
            · simp [acquired_append, acquired, hheld, deferredPuts]

theorem ioCopyBufferLoop_count (others : Nat → Pool → Pool) (message : List Byte)
    (remaining n : Nat) (t : Task)
    (hfin : (ioCopyBufferLoop others message remaining n t).outcome = Outcome.finished) :
    (acquired (ioCopyBufferLoop others message remaining n t).events).length
      = (acquired t.events).length + remaining := by
  induction remaining generalizing n t with
  | zero => rfl
  | succ r ih =>
    unfold ioCopyBufferLoop at hfin ⊢
    cases hw : t.conn.out.Write message with
    | mk err out₁ =>
      cases err with
      | some e => simp [hw] at hfin
      | none =>
        simp only [hw] at hfin ⊢
        cases hr : ioReadFull message.length t.conn.incoming with
        | none => simp [hr] at hfin
        | some res =>
          obtain ⟨rcv, rest⟩ := res
          cases rcv with
          | err msg bytes => simp [hr] at hfin
          | ok bytes =>
            simp only [hr] at hfin ⊢
            rw [ih _ _ hfin]
            simp [acquired_append, acquired]
            omega

theorem ioCopyBufferLoop_succ (others : Nat → Pool → Pool) (message : List Byte)
    (remaining n : Nat) (t : Task) :
    ioCopyBufferLoop others message (remaining + 1) n t
      = match t.conn.out.Write message with
        | (some _, out₁) =>
          { t with conn := { t.conn with out := out₁ }, events := t.events ++ [Event.send n],
                   outcome := Outcome.fatal n "Error writing to connection" }
        | (none, out₁) =>
          match ioReadFull message.length t.conn.incoming with
          | none =>
            { t with conn := { t.conn with out := out₁ },
                     pool := (others t.poolOps t.pool).Get.2, poolOps := t.poolOps + 1,
                     deferred := Deferred.poolPut (others t.poolOps t.pool).Get.1 :: t.deferred,
                     events := t.events
                       ++ [Event.send n, Event.get (others t.poolOps t.pool).Get.1],
                     outcome := Outcome.blocked n }
          | some (Received.err _ _, rest) =>
            { t with conn := { incoming := rest, out := out₁ },
                     pool := (others t.poolOps t.pool).Get.2, poolOps := t.poolOps + 1,
                     deferred := Deferred.poolPut (others t.poolOps t.pool).Get.1 :: t.deferred,
                     events := t.events
                       ++ [Event.send n, Event.get (others t.poolOps t.pool).Get.1],
                     outcome := Outcome.fatal n "Error reading from connection" }
          | some (Received.ok bytes, rest) =>
            ioCopyBufferLoop others message remaining (n + 1)
              { t with conn := { incoming := rest, out := out₁ },
                       pool := (others t.poolOps t.pool).Get.2, poolOps := t.poolOps + 1,
                       deferred := Deferred.poolPut (others t.poolOps t.pool).Get.1 :: t.deferred,
                       events := t.events
                         ++ [Event.send n, Event.get (others t.poolOps t.pool).Get.1]
                         ++ [Event.received n bytes] } := by
  rw [ioCopyBufferLoop]

theorem ioCopyBufferLoop_split (others : Nat → Pool → Pool) (message : List Byte)
    (a b n : Nat) (t : Task) (ht : t.outcome = Outcome.finished) :
    ioCopyBufferLoop others message (a + b) n t
      = if (ioCopyBufferLoop others message a n t).outcome = Outcome.finished then
          ioCopyBufferLoop others message b (n + a) (ioCopyBufferLoop others message a n t)
        else ioCopyBufferLoop others message a n t := by
  induction a generalizing n t with
  | zero => simp [ioCopyBufferLoop, ht]
  | succ a ih =>
    have hab : a + 1 + b = (a + b) + 1 := by omega
    have hn : n + (a + 1) = n + 1 + a := by omega
    rw [hab, hn, ioCopyBufferLoop_succ others message (a + b),
      ioCopyBufferLoop_succ others message a]
    cases hw : t.conn.out.Write message with
    | mk err out₁ =>
      cases err with
      | some e => simp
      | none =>
        simp only []
        cases hr : ioReadFull message.length t.conn.incoming with
        | none => simp
        | some res =>
          obtain ⟨rcv, rest⟩ := res
          cases rcv with
          | err msg bytes => simp
          | ok bytes =>
            simp only []
            rw [ih _ _ (by simpa using ht)]


/-- A pooled-buffer task whose replies all arrive, each in non-empty chunks that
sum to the message length, and whose writes all succeed, runs all its
iterations. -/
theorem ioCopyBufferLoop_finishes (others : Nat → Pool → Pool) (message : List Byte)
    (replyChunks : List (List (List Byte))) (rest : List Incoming) (n : Nat) (t : Task)
    (ht : t.outcome = Outcome.finished) (hw : ∀ k, t.conn.out.writeErr k = none)
    (hin : t.conn.incoming = replyChunks.flatten.map Incoming.data ++ rest)
    (hne : ∀ r ∈ replyChunks, ∀ c ∈ r, c ≠ [])
    (hlen : ∀ r ∈ replyChunks, r.flatten.length = message.length) :
    (ioCopyBufferLoop others message replyChunks.length n t).outcome = Outcome.finished := by
  induction replyChunks generalizing n t with
  | nil => exact ht
  | cons r rs ih =>
    rw [List.length_cons, ioCopyBufferLoop_succ, Writer.Write_ok _ _ hw]
    have hread : ioReadFull message.length t.conn.incoming
        = some (Received.ok r.flatten, rs.flatten.map Incoming.data ++ rest) := by
      rw [hin, List.flatten_cons, List.map_append, List.append_assoc, ioReadFull,
        readAtLeast_chunks message.length r _ [] (hne r (List.mem_cons_self _ _))
          (by simpa using hlen r (List.mem_cons_self _ _))]
      simp
    simp only [hread]
    apply ih
    · exact ht
    · exact hw
    · rfl
    · exact fun r' hr' => hne r' (List.mem_cons_of_mem _ hr')
    · exact fun r' hr' => hlen r' (List.mem_cons_of_mem _ hr')

/-- C10: in a pooled-buffer client task that runs its `N` iterations without
failure, after `k` iterations (`k ≤ N`) exactly `k` buffers have been taken from
the pool, one an iteration, none has been put back, and the `k` deferred `Put`
calls hold exactly those buffers; the run of `N` iterations goes on from that
state. At the exit of the task's function the deferred calls have all run and
the buffers put back are the `N` buffers taken, each once, the latest first. -/
theorem C10_deferred_pool_release (others : Nat → Pool → Pool) (message : List Byte)
    (N : Nat) (conn : Conn) (pool : Pool)
    (hfin : (ioCopyBufferAfter others message N conn pool).outcome = Outcome.finished)
    (k : Nat) (hk : k ≤ N) :
    (ioCopyBufferAfter others message k conn pool).outcome = Outcome.finished ∧
      ioCopyBufferAfter others message N conn pool
        = ioCopyBufferLoop others message (N - k) k
            (ioCopyBufferAfter others message k conn pool) ∧
      (acquired (ioCopyBufferAfter others message k conn pool).events).length = k ∧
      released (ioCopyBufferAfter others message k conn pool).events = [] ∧
      deferredPuts (ioCopyBufferAfter others message k conn pool).deferred
        = (acquired (ioCopyBufferAfter others message k conn pool).events).reverse ∧
      (deferredPuts (ioCopyBufferAfter others message k conn pool).deferred).length = k ∧
      (acquired (BenchmarkIoCopyBuffer others message N conn pool).events).length = N ∧
      released (BenchmarkIoCopyBuffer others message N conn pool).events
        = (acquired (BenchmarkIoCopyBuffer others message N conn pool).events).reverse ∧
      (BenchmarkIoCopyBuffer others message N conn pool).deferred = [] := by
  have hstart : (ioCopyBufferStart conn pool).outcome = Outcome.finished := rfl
  have hsplit := ioCopyBufferLoop_split others message k (N - k) 0
    (ioCopyBufferStart conn pool) hstart
  have hN : k + (N - k) = N := by omega
  rw [hN, Nat.zero_add] at hsplit
  have hkfin : (ioCopyBufferAfter others message k conn pool).outcome = Outcome.finished := by
    by_contra hne
    unfold ioCopyBufferAfter at hne hfin
    rw [hsplit, if_neg hne] at hfin
    exact hne hfin
  have hheld : ∀ j, released (ioCopyBufferAfter others message j conn pool).events = [] ∧
      deferredPuts (ioCopyBufferAfter others message j conn pool).deferred
        = (acquired (ioCopyBufferAfter others message j conn pool).events).reverse :=
    fun j => ioCopyBufferLoop_held others message j 0 (ioCopyBufferStart conn pool) rfl rfl
  have hcount : ∀ j, (ioCopyBufferAfter others message j conn pool).outcome = Outcome.finished →
      (acquired (ioCopyBufferAfter others message j conn pool).events).length = j := by
    intro j hj
    have h := ioCopyBufferLoop_count others message j 0 (ioCopyBufferStart conn pool) hj
    simpa [ioCopyBufferStart, acquired] using h
  have hd := runDeferred_events others
    (ioCopyBufferAfter others message N conn pool).deferred
    (ioCopyBufferAfter others message N conn pool)
  refine ⟨hkfin, ?_, hcount k hkfin, (hheld k).1, (hheld k).2, ?_, ?_, ?_, ?_⟩
  · unfold ioCopyBufferAfter at hkfin ⊢
    rw [hsplit, if_pos hkfin]
  · rw [(hheld k).2, List.length_reverse, hcount k hkfin]
  · unfold BenchmarkIoCopyBuffer
    simp only []
    rw [hd.2.1, hcount N hfin]
  · unfold BenchmarkIoCopyBuffer
    simp only []
    rw [hd.2.2.1, hd.2.1, (hheld N).1, (hheld N).2, List.nil_append]
  · unfold BenchmarkIoCopyBuffer
    exact hd.2.2.2.1

theorem twoRepliesConn_finishes :
    (ioCopyBufferAfter noOthers exampleMessage 2 twoRepliesConn { items := [] }).outcome
      = Outcome.finished := by
  have hmem : ∀ c : List Byte, c = exampleMessage ∨ c = exampleHalf → c ≠ [] := by
    intro c hc h
    rcases hc with rfl | rfl
    · have := exampleMessage_length
      rw [h] at this
      cases this
    · have := exampleHalf_length
      rw [h] at this
      cases this
  have hsplit : exampleHalf ++ exampleHalf = exampleMessage := by
    unfold exampleHalf exampleMessage
    exact List.append_replicate_replicate
  exact ioCopyBufferLoop_finishes noOthers exampleMessage
    [[exampleMessage], [exampleHalf, exampleHalf]] [] 0
    (ioCopyBufferStart twoRepliesConn { items := [] }) rfl (fun _ => rfl) rfl
    (by
      intro r hr c hc
      simp only [List.mem_cons, List.mem_singleton, List.not_mem_nil, or_false] at hr
      rcases hr with rfl | rfl
      · simp only [List.mem_singleton] at hc
        exact hmem c (Or.inl hc)
      · simp only [List.mem_cons, List.mem_singleton, List.not_mem_nil, or_false, or_self] at hc
        exact hmem c (Or.inr hc))
    (by
      intro r hr
      simp only [List.mem_cons, List.mem_singleton, List.not_mem_nil, or_false] at hr
      rcases hr with rfl | rfl
      · rw [List.flatten_cons, List.flatten_nil, List.append_nil]
      · rw [List.flatten_cons, List.flatten_cons, List.flatten_nil, List.append_nil, hsplit])

/-- C10 at a concrete input: two iterations whose replies arrive, the state
looked at after the first. -/
theorem C10_deferred_pool_release_witness :
    (ioCopyBufferAfter noOthers exampleMessage 2 twoRepliesConn { items := [] }).outcome
        = Outcome.finished ∧
      1 ≤ 2 ∧
      (acquired (ioCopyBufferAfter noOthers exampleMessage 1 twoRepliesConn
        { items := [] }).events).length = 1 ∧
      released (ioCopyBufferAfter noOthers exampleMessage 1 twoRepliesConn
        { items := [] }).events = [] ∧
      (acquired (BenchmarkIoCopyBuffer noOthers exampleMessage 2 twoRepliesConn
        { items := [] }).events).length = 2 :=
  have h := C10_deferred_pool_release noOthers exampleMessage 2 twoRepliesConn { items := [] }
    twoRepliesConn_finishes 1 (by decide)
  ⟨twoRepliesConn_finishes, by decide, h.2.2.1, h.2.2.2.1, h.2.2.2.2.2.2.1⟩

end TcpCopyBenchmark
